import Mathlib

/-!
Verification of the expression-evaluation engine of `task 8/task_8.cpp`:
a polymorphic AST over integer constants, named variables and four binary
operations, together with a weak-reference interning pool for leaf nodes.

The embedding follows the C++ source:
* `Expr` mirrors the `Expression` class hierarchy (`Constant`, `Variable`,
  `BinaryOp` with its four subclasses `Add`, `Subtract`, `Multiply`,
  `IntegerDivide`);
* `evaluate` mirrors the `evaluate` overrides, with C++ exceptions embedded
  as `Except EvalError`;
* `printExpr` mirrors the `print` overrides, with the output stream
  embedded as a `String` accumulator;
* `Pool` mirrors the factory's per-kind `std::map<Key, std::weak_ptr<Node>>`
  pools together with the heap of leaf nodes they observe; strong
  `shared_ptr` ownership is embedded as an explicit reference count per
  node, and a `weak_ptr` as a node id whose `lock` succeeds exactly when
  the count is positive.
-/

namespace Task8

/-- Kinds of binary operation; one per `BinaryOp` subclass in the source. -/
inductive BinKind where
  | add
  | subtract
  | multiply
  | integerDivide
deriving DecidableEq, Repr

/-- The operator symbol each subclass passes to the `BinaryOp` constructor
(`"+"`, `"-"`, `"*"`, `"//"`). -/
def BinKind.op : BinKind → String
  | .add => "+"
  | .subtract => "-"
  | .multiply => "*"
  | .integerDivide => "//"

/-- Expression AST, mirroring the `Expression` class hierarchy. -/
inductive Expr where
  | const (value : Int)
  | var (name : String)
  | binary (kind : BinKind) (left right : Expr)
deriving DecidableEq, Repr

/-- Evaluation context: the `std::map<std::string,int>` passed to
`evaluate`, embedded as an association list with unique keys. -/
abbrev Context := List (String × Int)

/-- Association-list lookup with decidable key equality; models
`std::map::contains` / `::at` / `::operator[]` lookup. -/
def lookupKey {α β : Type} [DecidableEq α] (k : α) : List (α × β) → Option β
  | [] => none
  | (k', v) :: rest => if k' = k then some v else lookupKey k rest

/-- The two `std::logic_error` conditions thrown during evaluation. -/
inductive EvalError where
  | undefinedVariable (name : String)
  | divisionByZero
deriving DecidableEq, Repr

/-- `Expression::evaluate`, per override:
* `Constant::evaluate` returns the stored value;
* `Variable::evaluate` throws when the context has no entry for the name,
  otherwise returns the mapped value;
* `Add`/`Subtract`/`Multiply` evaluate `left` then `right` and combine;
* `IntegerDivide::evaluate` first evaluates `right` into `divisor`, throws
  on `divisor == 0`, and only then evaluates `left` and divides with C++
  `/` (truncation toward zero, `Int.tdiv`). -/
def evaluate : Expr → Context → Except EvalError Int
  | .const v, _ => .ok v
  | .var n, vars =>
      match lookupKey n vars with
      | none => .error (.undefinedVariable n)
      | some v => .ok v
  | .binary .add l r, vars =>
      match evaluate l vars with
      | .error e => .error e
      | .ok a =>
          match evaluate r vars with
          | .error e => .error e
          | .ok b => .ok (a + b)
  | .binary .subtract l r, vars =>
      match evaluate l vars with
      | .error e => .error e
      | .ok a =>
          match evaluate r vars with
          | .error e => .error e
          | .ok b => .ok (a - b)
  | .binary .multiply l r, vars =>
      match evaluate l vars with
      | .error e => .error e
      | .ok a =>
          match evaluate r vars with
          | .error e => .error e
          | .ok b => .ok (a * b)
  | .binary .integerDivide l r, vars =>
      match evaluate r vars with
      | .error e => .error e
      | .ok divisor =>
          if divisor = 0 then .error .divisionByZero
          else
            match evaluate l vars with
            | .error e => .error e
            | .ok a => .ok (Int.tdiv a divisor)

/-- `Expression::print`, with the `std::ostream` embedded as a `String`
accumulator: `Constant::print` streams the value, `Variable::print` the
name, and `BinaryOp::print` streams `"("`, the left child, `' ' << op
<< ' '`, the right child, and `")"`. -/
def printExpr : Expr → String → String
  | .const v, os => os ++ toString v
  | .var n, os => os ++ n
  | .binary k l r, os =>
      printExpr r (printExpr l (os ++ "(") ++ " " ++ k.op ++ " ") ++ ")"

/-- Textual rendering of an expression: printing into an empty stream. -/
def render (e : Expr) : String := printExpr e ""

/-- Modelled from the spec: the rendering format as §4.1 describes it —
constants print their numeric value, variables their name, and binary
operations print as `(<left> <symbol> <right>)` with symbols `+`, `-`,
`*`, `//` for Add, Subtract, Multiply, IntegerDivide respectively. -/
def specSymbol : BinKind → String
  | .add => "+"
  | .subtract => "-"
  | .multiply => "*"
  | .integerDivide => "//"

/-- Modelled from the spec: compositional rendering per §4.1. -/
def renderSpec : Expr → String
  | .const v => toString v
  | .var n => n
  | .binary k l r =>
      "(" ++ renderSpec l ++ " " ++ specSymbol k ++ " " ++ renderSpec r ++ ")"

/-- The integer operation each `BinaryOp` subclass applies to the two
operand values. -/
def binFn : BinKind → Int → Int → Int
  | .add => fun a b => a + b
  | .subtract => fun a b => a - b
  | .multiply => fun a b => a * b
  | .integerDivide => fun a b => Int.tdiv a b

/-- `Reaches e ctx s` holds when evaluating `e` under `ctx` actually
evaluates the subterm `s`, following the control flow of the `evaluate`
overrides: `Add`/`Subtract`/`Multiply` evaluate the left child, and the
right child only once the left child returned a value; `IntegerDivide`
evaluates the right child (the divisor), and the left child only once the
divisor returned a nonzero value. -/
inductive Reaches : Expr → Context → Expr → Prop where
  | refl (e : Expr) (ctx : Context) : Reaches e ctx e
  | leftFirst (k : BinKind) (l r s : Expr) (ctx : Context)
      (hk : k ≠ .integerDivide) (h : Reaches l ctx s) :
      Reaches (.binary k l r) ctx s
  | leftThenRight (k : BinKind) (l r s : Expr) (ctx : Context) (v : Int)
      (hk : k ≠ .integerDivide) (hl : evaluate l ctx = .ok v)
      (h : Reaches r ctx s) :
      Reaches (.binary k l r) ctx s
  | divRight (l r s : Expr) (ctx : Context) (h : Reaches r ctx s) :
      Reaches (.binary .integerDivide l r) ctx s
  | divLeft (l r s : Expr) (ctx : Context) (d : Int)
      (hr : evaluate r ctx = .ok d) (hd : d ≠ 0) (h : Reaches l ctx s) :
      Reaches (.binary .integerDivide l r) ctx s

/-!
The interning pool.  The factory keeps one `std::map<Key,
std::weak_ptr<Node>>` per leaf kind (`constPool` keyed by `int`,
`varPool` keyed by `std::string`).  A `Pool K` packages such a map
(`entries`) together with the heap of leaf nodes of that kind it has ever
constructed (`nodes`): each node carries its strong reference count
(owners holding a `shared_ptr`) and its payload (the key it was
constructed from).  A node with count 0 is destroyed; the pool's
`weak_ptr`s do not contribute to the count.
-/

/-- One leaf node on the heap: its strong reference count and the key it
was constructed from (`Constant::value` / `Variable::name`). -/
structure PoolNode (K : Type) where
  rc : Nat
  payload : K
deriving DecidableEq, Repr

/-- Per-kind factory pool: allocation counter, heap of nodes ever
constructed (destroyed nodes stay listed with count 0), and the
`std::map` of weak references from key to observed node id. -/
structure Pool (K : Type) where
  nextId : Nat
  nodes : List (Nat × PoolNode K)
  entries : List (K × Nat)
deriving DecidableEq, Repr

/-- A `weak_ptr` to node `id` locks successfully exactly when some
external owner still holds the node, i.e. its strong count is positive. -/
def Pool.liveId {K : Type} (p : Pool K) (id : Nat) : Bool :=
  match lookupKey id p.nodes with
  | some n => decide (0 < n.rc)
  | none => false

/-- `ExpressionFactory::prune`: erase every map entry whose `weak_ptr`
has expired, keep the rest. -/
def Pool.prune {K : Type} (p : Pool K) : Pool K :=
  { p with entries := p.entries.filter fun kv => p.liveId kv.2 }

/-- `weak_ptr::lock` succeeding on node `id`: the returned `shared_ptr`
adds one strong owner. -/
def retainNodes {K : Type} (nodes : List (Nat × PoolNode K)) (id : Nat) :
    List (Nat × PoolNode K) :=
  nodes.map fun p => if p.1 = id then (p.1, ⟨p.2.rc + 1, p.2.payload⟩) else p

/-- `pool[key] = wp`: overwrite the entry for `key` if present, insert it
otherwise (the effect of `operator[]` default-insertion followed by the
assignment `wp = sp`). -/
def setEntry {α β : Type} [DecidableEq α] (entries : List (α × β))
    (key : α) (id : β) : List (α × β) :=
  match entries with
  | [] => [(key, id)]
  | (k, v) :: rest =>
      if k = key then (key, id) :: rest else (k, v) :: setEntry rest key id

/-- `ExpressionFactory::getConstant` / `getVariable`: prune the pool,
then look the key up; if the stored `weak_ptr` locks, return that node
(one more strong owner, no allocation); otherwise `make_shared` a fresh
node (count 1), store a weak reference to it under the key, and return
it.  Returns the id of the node handed to the caller and the new state. -/
def Pool.get {K : Type} [DecidableEq K] (p : Pool K) (key : K) :
    Nat × Pool K :=
  match lookupKey key p.prune.entries with
  | some id =>
      if p.prune.liveId id then
        (id, { p.prune with nodes := retainNodes p.prune.nodes id })
      else
        (p.prune.nextId,
         { nextId := p.prune.nextId + 1,
           nodes := (p.prune.nextId, ⟨1, key⟩) :: p.prune.nodes,
           entries := setEntry p.prune.entries key p.prune.nextId })
  | none =>
      (p.prune.nextId,
       { nextId := p.prune.nextId + 1,
         nodes := (p.prune.nextId, ⟨1, key⟩) :: p.prune.nodes,
         entries := setEntry p.prune.entries key p.prune.nextId })

/-- A `shared_ptr` to node `id` is dropped: the strong count decreases by
one; at zero the node is destroyed. -/
def releaseNodes {K : Type} (nodes : List (Nat × PoolNode K)) (id : Nat) :
    List (Nat × PoolNode K) :=
  nodes.map fun q => if q.1 = id then (q.1, ⟨q.2.rc - 1, q.2.payload⟩) else q

/-- An external owner drops its `shared_ptr` to node `id`.  The pool's
map is untouched (a now-stale entry lingers until the next prune). -/
def Pool.release {K : Type} (p : Pool K) (id : Nat) : Pool K :=
  { p with nodes := releaseNodes p.nodes id }

/-- Strong reference count of node `id`, when the node was ever
allocated. -/
def Pool.rcOf {K : Type} (p : Pool K) (id : Nat) : Option Nat :=
  (lookupKey id p.nodes).map PoolNode.rc

/-- Payload of node `id`, when the node was ever allocated. -/
def Pool.payloadOf {K : Type} (p : Pool K) (id : Nat) : Option K :=
  (lookupKey id p.nodes).map PoolNode.payload

/-- First components of an association list are pairwise distinct
(`std::map` keys are unique). -/
def keysUnique {α β : Type} [DecidableEq α] : List (α × β) → Bool
  | [] => true
  | (k, _) :: rest => rest.all (fun kv => decide (kv.1 ≠ k)) && keysUnique rest

/-- Well-formedness of a factory pool state: heap ids are unique and
below the allocation counter, map keys are unique, every map entry
points to an allocated node constructed from that very key, and every
live node is registered in the map under its key. -/
def Pool.wf {K : Type} [DecidableEq K] (p : Pool K) : Bool :=
  keysUnique p.nodes &&
  p.nodes.all (fun q => decide (q.1 < p.nextId)) &&
  keysUnique p.entries &&
  p.entries.all (fun kv => decide (p.payloadOf kv.2 = some kv.1)) &&
  p.nodes.all (fun q =>
    decide (0 < q.2.rc → lookupKey q.2.payload p.entries = some q.1))

/-- The factory's whole mutable state: the two per-kind pools of the
singleton `ExpressionFactory`. -/
structure Factory where
  constPool : Pool Int
  varPool : Pool String
deriving DecidableEq, Repr

/-- `evaluate` with the ambient mutable state (the context passed by
reference and the factory singleton reachable from any method body)
threaded explicitly, statement by statement along the C++ control flow;
used to state that evaluation never writes to any of it. -/
def evaluateS : Expr → Context × Factory → Except EvalError Int × (Context × Factory)
  | .const v, st => (.ok v, st)
  | .var n, st =>
      match lookupKey n st.1 with
      | none => (.error (.undefinedVariable n), st)
      | some v => (.ok v, st)
  | .binary .add l r, st =>
      match evaluateS l st with
      | (.error e, st') => (.error e, st')
      | (.ok a, st') =>
          match evaluateS r st' with
          | (.error e, st'') => (.error e, st'')
          | (.ok b, st'') => (.ok (a + b), st'')
  | .binary .subtract l r, st =>
      match evaluateS l st with
      | (.error e, st') => (.error e, st')
      | (.ok a, st') =>
          match evaluateS r st' with
          | (.error e, st'') => (.error e, st'')
          | (.ok b, st'') => (.ok (a - b), st'')
  | .binary .multiply l r, st =>
      match evaluateS l st with
      | (.error e, st') => (.error e, st')
      | (.ok a, st') =>
          match evaluateS r st' with
          | (.error e, st'') => (.error e, st'')
          | (.ok b, st'') => (.ok (a * b), st'')
  | .binary .integerDivide l r, st =>
      match evaluateS r st with
      | (.error e, st') => (.error e, st')
      | (.ok divisor, st') =>
          if divisor = 0 then (.error .divisionByZero, st')
          else
            match evaluateS l st' with
            | (.error e, st'') => (.error e, st'')
            | (.ok a, st'') => (.ok (Int.tdiv a divisor), st'')

/-- `print` with the output stream and the ambient state threaded
explicitly: writes only to the stream. -/
def printS : Expr → String × (Context × Factory) → String × (Context × Factory)
  | .const v, (os, st) => (os ++ toString v, st)
  | .var n, (os, st) => (os ++ n, st)
  | .binary k l r, (os, st) =>
      let (os₁, st₁) := printS l (os ++ "(", st)
      let (os₂, st₂) := printS r (os₁ ++ " " ++ k.op ++ " ", st₁)
      (os₂ ++ ")", st₂)

/-! Theorems. -/

theorem evaluate_nondiv_spec (k : BinKind) (hk : k ≠ .integerDivide)
    (l r : Expr) (ctx : Context) :
    (∀ err : EvalError, evaluate l ctx = .error err →
      evaluate (.binary k l r) ctx = .error err) ∧
    (∀ (a : Int) (err : EvalError),
      evaluate l ctx = .ok a → evaluate r ctx = .error err →
      evaluate (.binary k l r) ctx = .error err) ∧
    (∀ a b : Int, evaluate l ctx = .ok a → evaluate r ctx = .ok b →
      evaluate (.binary k l r) ctx = .ok (binFn k a b)) := by
  cases k with
  | integerDivide => exact absurd rfl hk
  | add =>
      exact ⟨fun err h => by simp only [evaluate, h],
             fun a err h1 h2 => by simp only [evaluate, h1, h2],
             fun a b h1 h2 => by simp only [evaluate, binFn, h1, h2]⟩
  | subtract =>
      exact ⟨fun err h => by simp only [evaluate, h],
             fun a err h1 h2 => by simp only [evaluate, h1, h2],
             fun a b h1 h2 => by simp only [evaluate, binFn, h1, h2]⟩
  | multiply =>
      exact ⟨fun err h => by simp only [evaluate, h],
             fun a err h1 h2 => by simp only [evaluate, h1, h2],
             fun a b h1 h2 => by simp only [evaluate, binFn, h1, h2]⟩

theorem error_undef_sound (n : String) : ∀ (e : Expr) (ctx : Context),
    evaluate e ctx = .error (.undefinedVariable n) →
    Reaches e ctx (.var n) ∧ lookupKey n ctx = none := by
  intro e
  induction e with
  | const v => intro ctx h; exact Except.noConfusion h
  | var m =>
      intro ctx h
      cases hm : lookupKey m ctx with
      | some v =>
          simp only [evaluate, hm] at h
          exact Except.noConfusion h
      | none =>
          simp only [evaluate, hm] at h
          injection h with h'
          injection h' with h''
          subst h''
          exact ⟨Reaches.refl _ _, hm⟩
  | binary k l r ihl ihr =>
      intro ctx h
      by_cases hk : k = .integerDivide
      · subst hk
        cases hr : evaluate r ctx with
        | error err =>
            have hnode : evaluate (.binary .integerDivide l r) ctx = .error err := by
              simp only [evaluate, hr]
            have heq := hnode.symm.trans h
            injection heq with h'
            subst h'
            obtain ⟨hre, hn⟩ := ihr ctx hr
            exact ⟨Reaches.divRight l r _ ctx hre, hn⟩
        | ok d =>
            by_cases hd : d = 0
            · subst hd
              have hnode : evaluate (.binary .integerDivide l r) ctx
                  = .error .divisionByZero := by simp [evaluate, hr]
              have heq := hnode.symm.trans h
              injection heq with h'
              exact EvalError.noConfusion h'
            · cases hl : evaluate l ctx with
              | error err =>
                  have hnode : evaluate (.binary .integerDivide l r) ctx = .error err := by
                    simp only [evaluate, hr, if_neg hd, hl]
                  have heq := hnode.symm.trans h
                  injection heq with h'
                  subst h'
                  obtain ⟨hre, hn⟩ := ihl ctx hl
                  exact ⟨Reaches.divLeft l r _ ctx d hr hd hre, hn⟩
              | ok a =>
                  have hnode : evaluate (.binary .integerDivide l r) ctx
                      = .ok (a.tdiv d) := by simp only [evaluate, hr, if_neg hd, hl]
                  exact Except.noConfusion (hnode.symm.trans h)
      · obtain ⟨e1, e2, e3⟩ := evaluate_nondiv_spec k hk l r ctx
        cases hl : evaluate l ctx with
        | error err =>
            have heq := (e1 err hl).symm.trans h
            injection heq with h'
            subst h'
            obtain ⟨hre, hn⟩ := ihl ctx hl
            exact ⟨Reaches.leftFirst k l r _ ctx hk hre, hn⟩
        | ok a =>
            cases hr : evaluate r ctx with
            | error err =>
                have heq := (e2 a err hl hr).symm.trans h
                injection heq with h'
                subst h'
                obtain ⟨hre, hn⟩ := ihr ctx hr
                exact ⟨Reaches.leftThenRight k l r _ ctx a hk hl hre, hn⟩
            | ok b =>
                exact Except.noConfusion ((e3 a b hl hr).symm.trans h)

theorem reaches_undef_complete : ∀ (e s : Expr) (ctx : Context), Reaches e ctx s →
    ∀ n : String, s = .var n → lookupKey n ctx = none →
    evaluate e ctx = .error (.undefinedVariable n) := by
  intro e s ctx h
  induction h with
  | refl e ctx =>
      intro n hs hn
      subst hs
      simp only [evaluate, hn]
  | leftFirst k l r s ctx hk hsub ih =>
      intro n hs hn
      exact (evaluate_nondiv_spec k hk l r ctx).1 _ (ih n hs hn)
  | leftThenRight k l r s ctx v hk hl hsub ih =>
      intro n hs hn
      exact (evaluate_nondiv_spec k hk l r ctx).2.1 v _ hl (ih n hs hn)
  | divRight l r s ctx hsub ih =>
      intro n hs hn
      simp only [evaluate, ih n hs hn]
  | divLeft l r s ctx d hr hd hsub ih =>
      intro n hs hn
      simp only [evaluate, hr, if_neg hd, ih n hs hn]

theorem error_div_sound : ∀ (e : Expr) (ctx : Context),
    evaluate e ctx = .error .divisionByZero →
    ∃ l r : Expr, Reaches e ctx (.binary .integerDivide l r) ∧ evaluate r ctx = .ok 0 := by
  intro e
  induction e with
  | const v => intro ctx h; exact Except.noConfusion h
  | var m =>
      intro ctx h
      cases hm : lookupKey m ctx with
      | some v =>
          simp only [evaluate, hm] at h
          exact Except.noConfusion h
      | none =>
          simp only [evaluate, hm] at h
          injection h with h'
          exact EvalError.noConfusion h'
  | binary k l r ihl ihr =>
      intro ctx h
      by_cases hk : k = .integerDivide
      · subst hk
        cases hr : evaluate r ctx with
        | error err =>
            have hnode : evaluate (.binary .integerDivide l r) ctx = .error err := by
              simp only [evaluate, hr]
            have heq := hnode.symm.trans h
            injection heq with h'
            subst h'
            obtain ⟨l', r', hre, hr0⟩ := ihr ctx hr
            exact ⟨l', r', Reaches.divRight l r _ ctx hre, hr0⟩
        | ok d =>
            by_cases hd : d = 0
            · subst hd
              exact ⟨l, r, Reaches.refl _ _, hr⟩
            · cases hl : evaluate l ctx with
              | error err =>
                  have hnode : evaluate (.binary .integerDivide l r) ctx = .error err := by
                    simp only [evaluate, hr, if_neg hd, hl]
                  have heq := hnode.symm.trans h
                  injection heq with h'
                  subst h'
                  obtain ⟨l', r', hre, hr0⟩ := ihl ctx hl
                  exact ⟨l', r', Reaches.divLeft l r _ ctx d hr hd hre, hr0⟩
              | ok a =>
                  have hnode : evaluate (.binary .integerDivide l r) ctx
                      = .ok (a.tdiv d) := by simp only [evaluate, hr, if_neg hd, hl]
                  exact Except.noConfusion (hnode.symm.trans h)
      · obtain ⟨e1, e2, e3⟩ := evaluate_nondiv_spec k hk l r ctx
        cases hl : evaluate l ctx with
        | error err =>
            have heq := (e1 err hl).symm.trans h
            injection heq with h'
            subst h'
            obtain ⟨l', r', hre, hr0⟩ := ihl ctx hl
            exact ⟨l', r', Reaches.leftFirst k l r _ ctx hk hre, hr0⟩
        | ok a =>
            cases hr : evaluate r ctx with
            | error err =>
                have heq := (e2 a err hl hr).symm.trans h
                injection heq with h'
                subst h'
                obtain ⟨l', r', hre, hr0⟩ := ihr ctx hr
                exact ⟨l', r', Reaches.leftThenRight k l r _ ctx a hk hl hre, hr0⟩
            | ok b =>
                exact Except.noConfusion ((e3 a b hl hr).symm.trans h)

theorem reaches_div_complete : ∀ (e s : Expr) (ctx : Context), Reaches e ctx s →
    ∀ l r : Expr, s = .binary .integerDivide l r → evaluate r ctx = .ok 0 →
    evaluate e ctx = .error .divisionByZero := by
  intro e s ctx h
  induction h with
  | refl e ctx =>
      intro l r hs hr
      subst hs
      simp [evaluate, hr]
  | leftFirst k l' r' s ctx hk hsub ih =>
      intro l r hs hr
      exact (evaluate_nondiv_spec k hk l' r' ctx).1 _ (ih l r hs hr)
  | leftThenRight k l' r' s ctx v hk hl hsub ih =>
      intro l r hs hr
      exact (evaluate_nondiv_spec k hk l' r' ctx).2.1 v _ hl (ih l r hs hr)
  | divRight l' r' s ctx hsub ih =>
      intro l r hs hr
      simp only [evaluate, ih l r hs hr]
  | divLeft l' r' s ctx d hr' hd hsub ih =>
      intro l r hs hr
      simp only [evaluate, hr', if_neg hd, ih l r hs hr]

/-- C4: under any context, `evaluate` fails with `UndefinedVariable(n)`
exactly when evaluation reaches a `Variable` node named `n` that is
absent from the context, and fails with `DivisionByZero` exactly when
evaluation reaches an `IntegerDivide` node whose right operand evaluates
to 0; in the `Except`-valued embedding, a reached error is the value of
the whole call — evaluation is aborted with no partial result and the
error propagates to the caller — and construction (`Expr` values) and
rendering are total and error-free. -/
theorem evaluate_error_characterization : ∀ (e : Expr) (ctx : Context),
    (∀ n : String, evaluate e ctx = .error (.undefinedVariable n) ↔
      (Reaches e ctx (.var n) ∧ lookupKey n ctx = none)) ∧
    (evaluate e ctx = .error .divisionByZero ↔
      ∃ l r : Expr, Reaches e ctx (.binary .integerDivide l r)
        ∧ evaluate r ctx = .ok 0) :=
  fun e ctx =>
    ⟨fun n =>
      ⟨error_undef_sound n e ctx,
       fun h => reaches_undef_complete e _ ctx h.1 n rfl h.2⟩,
     ⟨error_div_sound e ctx,
      fun h => by
        obtain ⟨l, r, hre, hr⟩ := h
        exact reaches_div_complete e _ ctx hre l r rfl hr⟩⟩

/-! Association-list lemmas used by the pool proofs. -/

theorem lookupKey_mem {α β : Type} [DecidableEq α] {k : α} {v : β} :
    ∀ {l : List (α × β)}, lookupKey k l = some v → (k, v) ∈ l := by
  intro l
  induction l with
  | nil => intro h; exact Option.noConfusion h
  | cons hd rest ih =>
      intro h
      obtain ⟨k', v'⟩ := hd
      by_cases hk : k' = k
      · subst hk
        simp only [lookupKey, if_pos rfl] at h
        injection h with h'
        subst h'
        exact List.mem_cons_self _ _
      · simp only [lookupKey, if_neg hk] at h
        exact List.mem_cons_of_mem _ (ih h)

theorem lookupKey_eq_none {α β : Type} [DecidableEq α] {k : α} :
    ∀ {l : List (α × β)}, lookupKey k l = none ↔ ∀ kv ∈ l, kv.1 ≠ k := by
  intro l
  induction l with
  | nil => simp [lookupKey]
  | cons hd rest ih =>
      obtain ⟨k', v'⟩ := hd
      by_cases hk : k' = k
      · subst hk
        simp [lookupKey]
      · simp [lookupKey, hk, ih]

theorem keysUnique_cons_iff {α β : Type} [DecidableEq α] {k : α} {v : β}
    {rest : List (α × β)} :
    keysUnique ((k, v) :: rest) = true ↔
      (∀ kv ∈ rest, kv.1 ≠ k) ∧ keysUnique rest = true := by
  simp [keysUnique, List.all_eq_true, Bool.and_eq_true]

theorem mem_lookupKey {α β : Type} [DecidableEq α] {k : α} {v : β} :
    ∀ {l : List (α × β)}, keysUnique l = true → (k, v) ∈ l →
    lookupKey k l = some v := by
  intro l
  induction l with
  | nil => intro _ h; exact absurd h (List.not_mem_nil _)
  | cons hd rest ih =>
      intro hu hm
      obtain ⟨k', v'⟩ := hd
      obtain ⟨hne, hu'⟩ := keysUnique_cons_iff.mp hu
      rcases List.mem_cons.mp hm with heq | hmem
      · injection heq with h1 h2
        subst h1
        subst h2
        simp [lookupKey]
      · by_cases hk : k' = k
        · subst hk
          exact absurd rfl (hne _ hmem)
        · simp only [lookupKey, if_neg hk]
          exact ih hu' hmem

theorem keysUnique_iff_nodup {α β : Type} [DecidableEq α] :
    ∀ {l : List (α × β)}, keysUnique l = true ↔ (l.map Prod.fst).Nodup := by
  intro l
  induction l with
  | nil => simp [keysUnique]
  | cons hd rest ih =>
      obtain ⟨k, v⟩ := hd
      rw [keysUnique_cons_iff]
      simp only [List.map_cons, List.nodup_cons, ih, List.mem_map]
      constructor
      · rintro ⟨hne, hu⟩
        exact ⟨fun ⟨kv, hmem, hfst⟩ => hne kv hmem hfst, hu⟩
      · rintro ⟨hnm, hu⟩
        exact ⟨fun kv hmem hfst => hnm ⟨kv, hmem, hfst⟩, hu⟩

theorem keysUnique_filter {α β : Type} [DecidableEq α]
    (pred : α × β → Bool) {l : List (α × β)} (hu : keysUnique l = true) :
    keysUnique (l.filter pred) = true := by
  rw [keysUnique_iff_nodup] at hu ⊢
  exact List.Nodup.sublist ((l.filter_sublist).map Prod.fst) hu

theorem lookupKey_filter_of_pred {α β : Type} [DecidableEq α]
    {k : α} {v : β} (pred : α × β → Bool) {l : List (α × β)}
    (hu : keysUnique l = true) (hl : lookupKey k l = some v)
    (hp : pred (k, v) = true) :
    lookupKey k (l.filter pred) = some v :=
  mem_lookupKey (keysUnique_filter pred hu)
    (List.mem_filter.mpr ⟨lookupKey_mem hl, hp⟩)

theorem lookupKey_filter_of_not_pred {α β : Type} [DecidableEq α]
    {k : α} {v : β} (pred : α × β → Bool) {l : List (α × β)}
    (hu : keysUnique l = true) (hl : lookupKey k l = some v)
    (hp : pred (k, v) = false) :
    lookupKey k (l.filter pred) = none := by
  cases hw : lookupKey k (l.filter pred) with
  | none => rfl
  | some w =>
      have hmem := List.mem_filter.mp (lookupKey_mem hw)
      have := mem_lookupKey hu hmem.1
      rw [hl] at this
      injection this with h'
      subst h'
      rw [hmem.2] at hp
      exact Bool.noConfusion hp

theorem lookupKey_filter_of_none {α β : Type} [DecidableEq α]
    {k : α} (pred : α × β → Bool) {l : List (α × β)}
    (hl : lookupKey k l = none) :
    lookupKey k (l.filter pred) = none :=
  lookupKey_eq_none.mpr fun kv hmem =>
    lookupKey_eq_none.mp hl kv (List.mem_filter.mp hmem).1

theorem lookupKey_setEntry_self {α β : Type} [DecidableEq α]
    (key : α) (id : β) : ∀ l : List (α × β),
    lookupKey key (setEntry l key id) = some id := by
  intro l
  induction l with
  | nil => simp [setEntry, lookupKey]
  | cons hd rest ih =>
      obtain ⟨k, v⟩ := hd
      by_cases hk : k = key
      · simp [setEntry, hk, lookupKey]
      · simp only [setEntry, if_neg hk, lookupKey, if_neg hk]
        exact ih

theorem lookupKey_setEntry_ne {α β : Type} [DecidableEq α]
    {k key : α} (id : β) (hk : k ≠ key) : ∀ l : List (α × β),
    lookupKey k (setEntry l key id) = lookupKey k l := by
  intro l
  have hk2 : ¬(key = k) := fun h => hk h.symm
  induction l with
  | nil => simp [setEntry, lookupKey, hk2]
  | cons hd rest ih =>
      obtain ⟨k', v⟩ := hd
      by_cases hk' : k' = key
      · subst hk'
        simp only [setEntry, if_pos rfl, lookupKey, if_neg hk2]
      · simp only [setEntry, if_neg hk', lookupKey]
        by_cases hkk : k' = k
        · simp only [if_pos hkk]
        · simp only [if_neg hkk]
          exact ih

theorem mem_setEntry {α β : Type} [DecidableEq α]
    {key : α} {id : β} {kv : α × β} :
    ∀ {l : List (α × β)}, keysUnique l = true → kv ∈ setEntry l key id →
    kv = (key, id) ∨ (kv ∈ l ∧ kv.1 ≠ key) := by
  intro l
  induction l with
  | nil =>
      intro _ hm
      simp only [setEntry, List.mem_singleton] at hm
      exact Or.inl hm
  | cons hd rest ih =>
      intro hu hm
      obtain ⟨k, v⟩ := hd
      obtain ⟨hne, hu'⟩ := keysUnique_cons_iff.mp hu
      by_cases hk : k = key
      · subst hk
        simp only [setEntry, eq_self_iff_true, if_true, List.mem_cons] at hm
        rcases hm with heq | hmem
        · exact Or.inl heq
        · exact Or.inr ⟨List.mem_cons_of_mem _ hmem, hne kv hmem⟩
      · simp only [setEntry, if_neg hk, List.mem_cons] at hm
        rcases hm with heq | hmem
        · subst heq
          exact Or.inr ⟨List.mem_cons_self _ _, hk⟩
        · rcases ih hu' hmem with h | ⟨hmem', hne'⟩
          · exact Or.inl h
          · exact Or.inr ⟨List.mem_cons_of_mem _ hmem', hne'⟩

theorem keysUnique_setEntry {α β : Type} [DecidableEq α]
    (key : α) (id : β) :
    ∀ {l : List (α × β)}, keysUnique l = true →
    keysUnique (setEntry l key id) = true := by
  intro l
  induction l with
  | nil => intro _; simp [setEntry, keysUnique]
  | cons hd rest ih =>
      intro hu
      obtain ⟨k, v⟩ := hd
      obtain ⟨hne, hu'⟩ := keysUnique_cons_iff.mp hu
      by_cases hk : k = key
      · subst hk
        simp only [setEntry, if_pos rfl]
        exact keysUnique_cons_iff.mpr ⟨hne, hu'⟩
      · simp only [setEntry, if_neg hk]
        refine keysUnique_cons_iff.mpr ⟨fun kv hm => ?_, ih hu'⟩
        rcases mem_setEntry hu' hm with heq | ⟨hmem, _⟩
        · subst heq
          exact fun h => hk h.symm
        · exact hne kv hmem

/-! Basic pool lemmas. -/

theorem liveId_iff {K : Type} (p : Pool K) (i : Nat) :
    p.liveId i = true ↔ ∃ n, lookupKey i p.nodes = some n ∧ 0 < n.rc := by
  unfold Pool.liveId
  cases h : lookupKey i p.nodes with
  | none => simp
  | some n => simp [h]

theorem prune_nodes {K : Type} (p : Pool K) : (p.prune).nodes = p.nodes := rfl

theorem prune_nextId {K : Type} (p : Pool K) : (p.prune).nextId = p.nextId := rfl

theorem prune_liveId {K : Type} (p : Pool K) (i : Nat) :
    (p.prune).liveId i = p.liveId i := rfl

theorem prune_entries {K : Type} (p : Pool K) :
    (p.prune).entries = p.entries.filter fun kv => p.liveId kv.2 := rfl

theorem lookupKey_mapAdjust {K : Type} (f : PoolNode K → PoolNode K) (id : Nat) :
    ∀ (ns : List (Nat × PoolNode K)) (i : Nat),
    lookupKey i (ns.map fun q => if q.1 = id then (q.1, f q.2) else q) =
      if i = id then (lookupKey i ns).map f else lookupKey i ns := by
  intro ns
  induction ns with
  | nil =>
      intro i
      simp only [List.map_nil, lookupKey]
      by_cases h : i = id <;> simp [h]
  | cons hd rest ih =>
      intro i
      obtain ⟨j, n⟩ := hd
      simp only [List.map_cons]
      by_cases hj : j = id
      · rw [if_pos hj]
        by_cases hij : j = i
        · subst hij
          simp [lookupKey, hj]
        · simp only [lookupKey, if_neg hij, ih i]
      · rw [if_neg hj]
        by_cases hij : j = i
        · subst hij
          simp [lookupKey, hj]
        · simp only [lookupKey, if_neg hij, ih i]

theorem lookupKey_retainNodes {K : Type} (id : Nat)
    (ns : List (Nat × PoolNode K)) (i : Nat) :
    lookupKey i (retainNodes ns id) =
      if i = id then
        (lookupKey i ns).map (fun n => ⟨n.rc + 1, n.payload⟩)
      else lookupKey i ns :=
  lookupKey_mapAdjust (fun n => ⟨n.rc + 1, n.payload⟩) id ns i

theorem lookupKey_releaseNodes {K : Type} (id : Nat)
    (ns : List (Nat × PoolNode K)) (i : Nat) :
    lookupKey i (releaseNodes ns id) =
      if i = id then
        (lookupKey i ns).map (fun n => ⟨n.rc - 1, n.payload⟩)
      else lookupKey i ns :=
  lookupKey_mapAdjust (fun n => ⟨n.rc - 1, n.payload⟩) id ns i

theorem map_fst_mapAdjust {K : Type} (f : PoolNode K → PoolNode K) (id : Nat)
    (ns : List (Nat × PoolNode K)) :
    (ns.map fun q => if q.1 = id then (q.1, f q.2) else q).map Prod.fst
      = ns.map Prod.fst := by
  induction ns with
  | nil => rfl
  | cons hd rest ih =>
      simp only [List.map_cons, ih]
      by_cases h : hd.1 = id <;> simp [h]

theorem keysUnique_mapAdjust {K : Type} (f : PoolNode K → PoolNode K) (id : Nat)
    (ns : List (Nat × PoolNode K)) (hu : keysUnique ns = true) :
    keysUnique (ns.map fun q => if q.1 = id then (q.1, f q.2) else q) = true := by
  rw [keysUnique_iff_nodup, map_fst_mapAdjust]
  exact keysUnique_iff_nodup.mp hu

theorem wf_iff {K : Type} [DecidableEq K] (p : Pool K) : p.wf = true ↔
    (keysUnique p.nodes = true ∧
     (∀ q ∈ p.nodes, q.1 < p.nextId) ∧
     keysUnique p.entries = true ∧
     (∀ kv ∈ p.entries, p.payloadOf kv.2 = some kv.1) ∧
     (∀ q ∈ p.nodes, 0 < q.2.rc → lookupKey q.2.payload p.entries = some q.1)) := by
  simp only [Pool.wf, Bool.and_eq_true, List.all_eq_true, decide_eq_true_eq]
  tauto

theorem fst_ite_pair {K : Type} (id : Nat) (f : PoolNode K → PoolNode K)
    (q : Nat × PoolNode K) :
    (if q.1 = id then (q.1, f q.2) else q).1 = q.1 := by
  by_cases h : q.1 = id <;> simp [h]

theorem prune_lookup_live {K : Type} [DecidableEq K] (p : Pool K) (key : K)
    (id : Nat) (hm : lookupKey key p.prune.entries = some id) :
    p.liveId id = true := by
  have hmem := lookupKey_mem hm
  rw [prune_entries] at hmem
  exact (List.mem_filter.mp hmem).2

theorem get_hit_eq {K : Type} [DecidableEq K] (p : Pool K) (key : K) (id : Nat)
    (hm : lookupKey key p.prune.entries = some id) :
    p.get key = (id, ⟨p.nextId, retainNodes p.nodes id,
      p.entries.filter fun kv => p.liveId kv.2⟩) := by
  have hl : p.prune.liveId id = true := prune_lookup_live p key id hm
  simp only [Pool.get, hm]
  rw [if_pos hl]
  rfl

theorem get_miss_eq {K : Type} [DecidableEq K] (p : Pool K) (key : K)
    (hm : lookupKey key p.prune.entries = none) :
    p.get key = (p.nextId, ⟨p.nextId + 1, (p.nextId, ⟨1, key⟩) :: p.nodes,
      setEntry (p.entries.filter fun kv => p.liveId kv.2) key p.nextId⟩) := by
  simp only [Pool.get, hm]
  rfl

theorem release_last {K : Type} (p : Pool K) (i : Nat)
    (hrc : p.rcOf i = some 1) :
    (p.release i).liveId i = false ∧ (p.release i).entries = p.entries := by
  constructor
  · cases hn : lookupKey i p.nodes with
    | none => simp [Pool.rcOf, hn] at hrc
    | some n =>
        have hrc1 : n.rc = 1 := by
          simp only [Pool.rcOf, hn, Option.map_some'] at hrc
          injection hrc
        have hlook : lookupKey i (p.release i).nodes = some ⟨n.rc - 1, n.payload⟩ := by
          show lookupKey i (releaseNodes p.nodes i) = _
          rw [lookupKey_releaseNodes, if_pos rfl, hn]
          rfl
        simp [Pool.liveId, hlook, hrc1]
  · rfl

theorem wf_prune {K : Type} [DecidableEq K] (p : Pool K) (hwf : p.wf = true) :
    (p.prune).wf = true := by
  rw [wf_iff] at hwf ⊢
  obtain ⟨h1, h2, h3, h4, h5⟩ := hwf
  refine ⟨h1, h2, keysUnique_filter _ h3, ?_, ?_⟩
  · intro kv hkv
    rw [prune_entries] at hkv
    exact h4 kv (List.mem_filter.mp hkv).1
  · intro q hq hrc
    have hq' : q ∈ p.nodes := hq
    have hreg := h5 q hq' hrc
    have hlive : p.liveId q.1 = true :=
      (liveId_iff p q.1).mpr ⟨q.2, mem_lookupKey h1 hq', hrc⟩
    rw [prune_entries]
    exact lookupKey_filter_of_pred _ h3 hreg hlive

theorem wf_release {K : Type} [DecidableEq K] (p : Pool K) (i : Nat)
    (hwf : p.wf = true) : (p.release i).wf = true := by
  rw [wf_iff] at hwf ⊢
  obtain ⟨h1, h2, h3, h4, h5⟩ := hwf
  refine ⟨?_, ?_, h3, ?_, ?_⟩
  · exact keysUnique_mapAdjust (fun n => ⟨n.rc - 1, n.payload⟩) i p.nodes h1
  · intro q hq
    have hq2 : q ∈ p.nodes.map
        (fun q => if q.1 = i then (q.1, ⟨q.2.rc - 1, q.2.payload⟩) else q) := hq
    obtain ⟨q₀, hq₀, hadj⟩ := List.mem_map.mp hq2
    rw [← hadj]
    by_cases hqi : q₀.1 = i
    · simp only [if_pos hqi]
      exact h2 q₀ hq₀
    · simp only [if_neg hqi]
      exact h2 q₀ hq₀
  · intro kv hkv
    have h := h4 kv hkv
    show (lookupKey kv.2 (releaseNodes p.nodes i)).map PoolNode.payload = some kv.1
    rw [lookupKey_releaseNodes]
    by_cases hki : kv.2 = i
    · rw [if_pos hki]
      cases hn : lookupKey kv.2 p.nodes with
      | none =>
          rw [Pool.payloadOf, hn] at h
          exact absurd h (by simp)
      | some n =>
          have h' : some n.payload = some kv.1 := by
            simpa [Pool.payloadOf, hn] using h
          simp only [hn, Option.map_some']
          exact h'
    · rw [if_neg hki]
      exact h
  · intro q hq hrc
    have hq2 : q ∈ p.nodes.map
        (fun q => if q.1 = i then (q.1, ⟨q.2.rc - 1, q.2.payload⟩) else q) := hq
    obtain ⟨q₀, hq₀, hadj⟩ := List.mem_map.mp hq2
    by_cases hqi : q₀.1 = i
    · rw [← hadj] at hrc ⊢
      simp only [if_pos hqi] at hrc ⊢
      have hrc₀ : 0 < q₀.2.rc := by
        have : 0 < q₀.2.rc - 1 := hrc
        omega
      exact h5 q₀ hq₀ hrc₀
    · rw [← hadj] at hrc ⊢
      simp only [if_neg hqi] at hrc ⊢
      exact h5 q₀ hq₀ hrc

theorem wf_get {K : Type} [DecidableEq K] (p : Pool K) (key : K)
    (hwf : p.wf = true) : (p.get key).2.wf = true := by
  have hpw := wf_prune p hwf
  rw [wf_iff] at hwf hpw
  obtain ⟨h1, h2, h3, h4, h5⟩ := hwf
  obtain ⟨hp1, hp2, hp3, hp4, hp5⟩ := hpw
  cases hm : lookupKey key p.prune.entries with
  | some id =>
      have hl : p.liveId id = true := prune_lookup_live p key id hm
      rw [get_hit_eq p key id hm, wf_iff]
      dsimp only
      refine ⟨?_, ?_, ?_, ?_, ?_⟩
      · exact keysUnique_mapAdjust (fun n => ⟨n.rc + 1, n.payload⟩) id p.nodes h1
      · intro q hq
        have hq2 : q ∈ p.nodes.map
            (fun q => if q.1 = id then (q.1, ⟨q.2.rc + 1, q.2.payload⟩) else q) := hq
        obtain ⟨q₀, hq₀, hadj⟩ := List.mem_map.mp hq2
        rw [← hadj]
        by_cases hqi : q₀.1 = id
        · simp only [if_pos hqi]
          exact h2 q₀ hq₀
        · simp only [if_neg hqi]
          exact h2 q₀ hq₀
      · exact hp3
      · intro kv hkv
        have hkv' : kv ∈ p.prune.entries := hkv
        have h' : (lookupKey kv.2 p.nodes).map PoolNode.payload = some kv.1 :=
          hp4 kv hkv'
        show (lookupKey kv.2 (retainNodes p.nodes id)).map PoolNode.payload = some kv.1
        rw [lookupKey_retainNodes]
        by_cases hki : kv.2 = id
        · rw [if_pos hki]
          cases hn : lookupKey kv.2 p.nodes with
          | none =>
              rw [hn] at h'
              exact absurd h' (by simp)
          | some n =>
              have h'' : some n.payload = some kv.1 := by simpa [hn] using h'
              simp only [hn, Option.map_some']
              exact h''
        · rw [if_neg hki]
          exact h'
      · intro q hq hrc
        have hq2 : q ∈ p.nodes.map
            (fun q => if q.1 = id then (q.1, ⟨q.2.rc + 1, q.2.payload⟩) else q) := hq
        obtain ⟨q₀, hq₀, hadj⟩ := List.mem_map.mp hq2
        by_cases hqi : q₀.1 = id
        · rw [← hadj]
          simp only [if_pos hqi]
          have hlook : lookupKey q₀.1 p.nodes = some q₀.2 := mem_lookupKey h1 hq₀
          rw [hqi] at hlook
          obtain ⟨n, hn, hnrc⟩ := (liveId_iff p id).mp hl
          rw [hn] at hlook
          injection hlook with he
          subst he
          exact hp5 q₀ hq₀ hnrc
        · rw [← hadj] at hrc ⊢
          simp only [if_neg hqi] at hrc ⊢
          exact hp5 q₀ hq₀ hrc
  | none =>
      rw [get_miss_eq p key hm, wf_iff]
      dsimp only
      refine ⟨?_, ?_, ?_, ?_, ?_⟩
      · refine keysUnique_cons_iff.mpr ⟨?_, h1⟩
        intro kv hkv
        exact Nat.ne_of_lt (h2 kv hkv)
      · intro q hq
        rcases List.mem_cons.mp hq with heq | hmem
        · subst heq
          exact Nat.lt_succ_self _
        · exact Nat.lt_succ_of_lt (h2 q hmem)
      · exact keysUnique_setEntry key p.nextId hp3
      · intro kv hkv
        rcases mem_setEntry hp3 hkv with heq | ⟨hmem, hne⟩
        · subst heq
          show (lookupKey p.nextId ((p.nextId, ⟨1, key⟩) :: p.nodes)).map
              PoolNode.payload = some key
          simp [lookupKey]
        · have h' : (lookupKey kv.2 p.nodes).map PoolNode.payload = some kv.1 :=
            hp4 kv hmem
          cases hn : lookupKey kv.2 p.nodes with
          | none =>
              rw [hn] at h'
              exact absurd h' (by simp)
          | some n =>
              have hlt : kv.2 < p.nextId := h2 (kv.2, n) (lookupKey_mem hn)
              show (lookupKey kv.2 ((p.nextId, ⟨1, key⟩) :: p.nodes)).map
                  PoolNode.payload = some kv.1
              have hne2 : ¬(p.nextId = kv.2) := fun hh =>
                absurd hh.symm (Nat.ne_of_lt hlt)
              simp only [lookupKey, if_neg hne2]
              exact h'
      · intro q hq hrc
        rcases List.mem_cons.mp hq with heq | hmem
        · subst heq
          exact lookupKey_setEntry_self key p.nextId _
        · have hreg := hp5 q hmem hrc
          by_cases hpk : q.2.payload = key
          · rw [hpk] at hreg
            rw [hm] at hreg
            exact Option.noConfusion hreg
          · rw [lookupKey_setEntry_ne p.nextId hpk]
            exact hreg

theorem get_entry_self {K : Type} [DecidableEq K] (p : Pool K) (key : K) :
    lookupKey key (p.get key).2.entries = some (p.get key).1 := by
  cases hm : lookupKey key p.prune.entries with
  | some id =>
      rw [get_hit_eq p key id hm]
      exact hm
  | none =>
      rw [get_miss_eq p key hm]
      exact lookupKey_setEntry_self key p.nextId _

theorem get_live_self {K : Type} [DecidableEq K] (p : Pool K) (key : K) :
    (p.get key).2.liveId (p.get key).1 = true := by
  cases hm : lookupKey key p.prune.entries with
  | some id =>
      have hl := prune_lookup_live p key id hm
      obtain ⟨n, hn, hnrc⟩ := (liveId_iff p id).mp hl
      rw [get_hit_eq p key id hm]
      refine (liveId_iff _ _).mpr ⟨⟨n.rc + 1, n.payload⟩, ?_, Nat.succ_pos _⟩
      show lookupKey id (retainNodes p.nodes id) = _
      rw [lookupKey_retainNodes, if_pos rfl, hn]
      rfl
  | none =>
      rw [get_miss_eq p key hm]
      refine (liveId_iff _ _).mpr ⟨⟨1, key⟩, ?_, Nat.one_pos⟩
      show lookupKey p.nextId ((p.nextId, ⟨1, key⟩) :: p.nodes) = some ⟨1, key⟩
      simp [lookupKey]

theorem get_payload_self {K : Type} [DecidableEq K] (p : Pool K) (key : K)
    (hwf : p.wf = true) :
    (p.get key).2.payloadOf (p.get key).1 = some key := by
  cases hm : lookupKey key p.prune.entries with
  | some id =>
      have hpw := wf_prune p hwf
      rw [wf_iff] at hpw
      have h' : (lookupKey id p.nodes).map PoolNode.payload = some key :=
        hpw.2.2.2.1 (key, id) (lookupKey_mem hm)
      rw [get_hit_eq p key id hm]
      show (lookupKey id (retainNodes p.nodes id)).map PoolNode.payload = some key
      rw [lookupKey_retainNodes, if_pos rfl]
      cases hn : lookupKey id p.nodes with
      | none =>
          rw [hn] at h'
          exact absurd h' (by simp)
      | some n =>
          have h'' : some n.payload = some key := by simpa [hn] using h'
          simp only [hn, Option.map_some']
          exact h''
  | none =>
      rw [get_miss_eq p key hm]
      show (lookupKey p.nextId ((p.nextId, ⟨1, key⟩) :: p.nodes)).map
          PoolNode.payload = some key
      simp [lookupKey]

theorem get_get_same {K : Type} [DecidableEq K] (p : Pool K) (key : K)
    (hwf : p.wf = true) :
    ((p.get key).2.get key).1 = (p.get key).1 ∧
    ((p.get key).2.get key).2.nextId = (p.get key).2.nextId := by
  have hw1 := wf_get p key hwf
  rw [wf_iff] at hw1
  have hu1 : keysUnique (p.get key).2.entries = true := hw1.2.2.1
  have he1 := get_entry_self p key
  have hl1 := get_live_self p key
  have hm2 : lookupKey key ((p.get key).2).prune.entries = some (p.get key).1 := by
    rw [prune_entries]
    exact lookupKey_filter_of_pred _ hu1 he1 hl1
  rw [get_hit_eq _ key _ hm2]
  exact ⟨rfl, rfl⟩

/-- C2: requesting the same key twice in immediate succession without
releasing the handle returned first yields the same node both times
(identity of node ids) with no new allocation on the second call (the
allocation counter is unchanged), the returned node was constructed from
that very key, and rendering the corresponding leaf gives the decimal
string of the value (for constants), resp. the name (for variables). -/
theorem pool_intern_hit (v : Int) (name : String) (pc : Pool Int)
    (pv : Pool String) (hc : pc.wf = true) (hv : pv.wf = true) :
    (((pc.get v).2.get v).1 = (pc.get v).1 ∧
     ((pc.get v).2.get v).2.nextId = (pc.get v).2.nextId ∧
     (pc.get v).2.payloadOf (pc.get v).1 = some v ∧
     render (.const v) = toString v) ∧
    (((pv.get name).2.get name).1 = (pv.get name).1 ∧
     ((pv.get name).2.get name).2.nextId = (pv.get name).2.nextId ∧
     (pv.get name).2.payloadOf (pv.get name).1 = some name ∧
     render (.var name) = name) := by
  obtain ⟨hc1, hc2⟩ := get_get_same pc v hc
  obtain ⟨hv1, hv2⟩ := get_get_same pv name hv
  exact ⟨⟨hc1, hc2, get_payload_self pc v hc, String.empty_append _⟩,
         ⟨hv1, hv2, get_payload_self pv name hv, String.empty_append _⟩⟩

/-- C2 witness: instantiation at value 42 and name `x` on empty pools. -/
theorem pool_intern_hit_witness :
    Pool.wf (⟨0, [], []⟩ : Pool Int) = true ∧
    Pool.wf (⟨0, [], []⟩ : Pool String) = true ∧
    (((⟨0, [], []⟩ : Pool Int).get 42).2.get 42).1
      = ((⟨0, [], []⟩ : Pool Int).get 42).1 ∧
    (((⟨0, [], []⟩ : Pool String).get "x").2.get "x").1
      = ((⟨0, [], []⟩ : Pool String).get "x").1 :=
  ⟨by decide, by decide,
   (pool_intern_hit 42 "x" ⟨0, [], []⟩ ⟨0, [], []⟩ (by decide) (by decide)).1.1,
   (pool_intern_hit 42 "x" ⟨0, [], []⟩ ⟨0, [], []⟩ (by decide) (by decide)).2.1⟩

/-- C3: the pool never extends a node's lifetime.  In a well-formed pool
state there is at most one live node per key; releasing the last
external owner of a node destroys it even though its pool entry is still
present (the entry is merely stale afterwards); and well-formedness is
preserved by every `get` and every release, so this holds at every
instant of a get/release history. -/
theorem pool_never_extends_lifetime {K : Type} [DecidableEq K] (p : Pool K)
    (key : K) (i : Nat) (hwf : p.wf = true) :
    (∀ (i₁ i₂ : Nat) (n₁ n₂ : PoolNode K),
      lookupKey i₁ p.nodes = some n₁ → lookupKey i₂ p.nodes = some n₂ →
      0 < n₁.rc → 0 < n₂.rc → n₁.payload = n₂.payload → i₁ = i₂) ∧
    (p.rcOf i = some 1 →
      (p.release i).liveId i = false ∧ (p.release i).entries = p.entries) ∧
    ((p.get key).2.wf = true ∧ (p.release i).wf = true) := by
  refine ⟨?_, fun hrc => release_last p i hrc,
    wf_get p key hwf, wf_release p i hwf⟩
  intro i₁ i₂ n₁ n₂ hl1 hl2 hr1 hr2 hpay
  rw [wf_iff] at hwf
  obtain ⟨h1, h2, h3, h4, h5⟩ := hwf
  have hreg1 : lookupKey n₁.payload p.entries = some i₁ :=
    h5 (i₁, n₁) (lookupKey_mem hl1) hr1
  have hreg2 : lookupKey n₂.payload p.entries = some i₂ :=
    h5 (i₂, n₂) (lookupKey_mem hl2) hr2
  rw [hpay] at hreg1
  rw [hreg2] at hreg1
  injection hreg1 with h'
  exact h'.symm

/-- C3 witness: a one-node pool whose sole owner releases it — the node
dies while the stale entry stays. -/
theorem pool_never_extends_lifetime_witness :
    Pool.wf (⟨1, [(0, ⟨1, (5 : Int)⟩)], [((5 : Int), 0)]⟩ : Pool Int) = true ∧
    ((⟨1, [(0, ⟨1, (5 : Int)⟩)], [((5 : Int), 0)]⟩ : Pool Int).release 0).liveId 0
      = false ∧
    ((⟨1, [(0, ⟨1, (5 : Int)⟩)], [((5 : Int), 0)]⟩ : Pool Int).release 0).entries
      = [((5 : Int), 0)] :=
  ⟨by decide,
   ((pool_never_extends_lifetime
      (⟨1, [(0, ⟨1, (5 : Int)⟩)], [((5 : Int), 0)]⟩ : Pool Int) 5 0
      (by decide)).2.1 (by decide)).1,
   ((pool_never_extends_lifetime
      (⟨1, [(0, ⟨1, (5 : Int)⟩)], [((5 : Int), 0)]⟩ : Pool Int) 5 0
      (by decide)).2.1 (by decide)).2⟩

/-- C5: once the sole external owner of a pooled node has released it, a
subsequent `get` (whose leading prune erases the now-stale entry)
constructs a fresh, distinct node, stores a weak reference to it under
the key — replacing the stale entry — and returns it. -/
theorem get_after_release_fresh {K : Type} [DecidableEq K] (p : Pool K)
    (key : K) (id : Nat) (hwf : p.wf = true)
    (he : lookupKey key p.entries = some id) (hrc : p.rcOf id = some 1) :
    ((p.release id).get key).1 ≠ id ∧
    lookupKey key ((p.release id).get key).2.entries
      = some ((p.release id).get key).1 ∧
    ((p.release id).get key).2.payloadOf ((p.release id).get key).1
      = some key := by
  obtain ⟨hdead, hent⟩ := release_last p id hrc
  rw [wf_iff] at hwf
  obtain ⟨h1, h2, h3, h4, h5⟩ := hwf
  have he' : lookupKey key (p.release id).entries = some id := by
    rw [hent]
    exact he
  have hu' : keysUnique (p.release id).entries = true := by
    rw [hent]
    exact h3
  have hm : lookupKey key (p.release id).prune.entries = none := by
    rw [prune_entries]
    exact lookupKey_filter_of_not_pred _ hu' he' hdead
  rw [get_miss_eq (p.release id) key hm]
  dsimp only
  refine ⟨?_, lookupKey_setEntry_self key _ _, ?_⟩
  · have h' : (lookupKey id p.nodes).map PoolNode.payload = some key :=
      h4 (key, id) (lookupKey_mem he)
    cases hn : lookupKey id p.nodes with
    | none =>
        rw [hn] at h'
        exact absurd h' (by simp)
    | some n =>
        have hlt : id < p.nextId := h2 (id, n) (lookupKey_mem hn)
        intro hh
        have hh' : p.nextId = id := hh
        omega
  · show (lookupKey (p.release id).nextId
        (((p.release id).nextId, ⟨1, key⟩) :: (p.release id).nodes)).map
        PoolNode.payload = some key
    simp [lookupKey]

/-- C5 witness: a one-node pool; release the single owner, then `get`
the same key again. -/
theorem get_after_release_fresh_witness :
    Pool.wf (⟨1, [(0, ⟨1, (7 : Int)⟩)], [((7 : Int), 0)]⟩ : Pool Int) = true ∧
    (((⟨1, [(0, ⟨1, (7 : Int)⟩)], [((7 : Int), 0)]⟩ : Pool Int).release 0).get 7).1
      ≠ 0 :=
  ⟨by decide,
   (get_after_release_fresh
      (⟨1, [(0, ⟨1, (7 : Int)⟩)], [((7 : Int), 0)]⟩ : Pool Int) 7 0
      (by decide) (by decide) (by decide)).1⟩

/-- C6: prune removes exactly the entries whose weak reference no longer
resolves; immediately after any `get` every entry remaining in that
kind's pool resolves to a live node; and a stale entry never causes a
wrong node to be returned — a `get` against a stale entry returns a node
distinct from the dead one. -/
theorem prune_get_liveness {K : Type} [DecidableEq K] (p : Pool K) (key : K)
    (hwf : p.wf = true) :
    (∀ (k : K) (i : Nat),
      (k, i) ∈ p.prune.entries ↔ ((k, i) ∈ p.entries ∧ p.liveId i = true)) ∧
    (∀ (k : K) (i : Nat), lookupKey k (p.get key).2.entries = some i →
      (p.get key).2.liveId i = true) ∧
    (∀ i : Nat, lookupKey key p.entries = some i → p.liveId i = false →
      (p.get key).1 ≠ i) := by
  rw [wf_iff] at hwf
  obtain ⟨h1, h2, h3, h4, h5⟩ := hwf
  refine ⟨?_, ?_, ?_⟩
  · intro k i
    rw [prune_entries]
    exact List.mem_filter
  · intro k i hki
    cases hm : lookupKey key p.prune.entries with
    | some id =>
        rw [get_hit_eq p key id hm] at hki ⊢
        have hmem := lookupKey_mem hki
        have hlive : p.liveId i = true := (List.mem_filter.mp hmem).2
        obtain ⟨n, hn, hnrc⟩ := (liveId_iff p i).mp hlive
        refine (liveId_iff _ _).mpr ?_
        show ∃ n', lookupKey i (retainNodes p.nodes id) = some n' ∧ 0 < n'.rc
        rw [lookupKey_retainNodes]
        by_cases hii : i = id
        · rw [if_pos hii]
          exact ⟨⟨n.rc + 1, n.payload⟩, by rw [hn]; rfl, Nat.succ_pos _⟩
        · rw [if_neg hii]
          exact ⟨n, hn, hnrc⟩
    | none =>
        rw [get_miss_eq p key hm] at hki ⊢
        by_cases hk : k = key
        · subst hk
          rw [lookupKey_setEntry_self] at hki
          injection hki with hki'
          subst hki'
          refine (liveId_iff _ _).mpr ⟨⟨1, k⟩, ?_, Nat.one_pos⟩
          show lookupKey p.nextId ((p.nextId, ⟨1, k⟩) :: p.nodes) = some ⟨1, k⟩
          simp [lookupKey]
        · rw [lookupKey_setEntry_ne p.nextId hk] at hki
          have hmem := lookupKey_mem hki
          have hlive : p.liveId i = true := (List.mem_filter.mp hmem).2
          obtain ⟨n, hn, hnrc⟩ := (liveId_iff p i).mp hlive
          have hlt : i < p.nextId := h2 (i, n) (lookupKey_mem hn)
          refine (liveId_iff _ _).mpr ⟨n, ?_, hnrc⟩
          show lookupKey i ((p.nextId, ⟨1, key⟩) :: p.nodes) = some n
          have hne2 : ¬(p.nextId = i) := by omega
          simp only [lookupKey, if_neg hne2]
          exact hn
  · intro i he hdead
    have hm : lookupKey key p.prune.entries = none := by
      rw [prune_entries]
      exact lookupKey_filter_of_not_pred _ h3 he hdead
    rw [get_miss_eq p key hm]
    dsimp only
    have h' : (lookupKey i p.nodes).map PoolNode.payload = some key :=
      h4 (key, i) (lookupKey_mem he)
    cases hn : lookupKey i p.nodes with
    | none =>
        rw [hn] at h'
        exact absurd h' (by simp)
    | some n =>
        have hlt : i < p.nextId := h2 (i, n) (lookupKey_mem hn)
        omega

/-- C6 witness: a one-live-node pool; prune keeps exactly the live
entry. -/
theorem prune_get_liveness_witness :
    Pool.wf (⟨1, [(0, ⟨1, (5 : Int)⟩)], [((5 : Int), 0)]⟩ : Pool Int) = true ∧
    (((5 : Int), 0) ∈
        (⟨1, [(0, ⟨1, (5 : Int)⟩)], [((5 : Int), 0)]⟩ : Pool Int).prune.entries ↔
      (((5 : Int), 0) ∈
          (⟨1, [(0, ⟨1, (5 : Int)⟩)], [((5 : Int), 0)]⟩ : Pool Int).entries ∧
        (⟨1, [(0, ⟨1, (5 : Int)⟩)], [((5 : Int), 0)]⟩ : Pool Int).liveId 0
          = true)) :=
  ⟨by decide,
   (prune_get_liveness
      (⟨1, [(0, ⟨1, (5 : Int)⟩)], [((5 : Int), 0)]⟩ : Pool Int) 5
      (by decide)).1 5 0⟩

theorem printExpr_eq_append (e : Expr) :
    ∀ os : String, printExpr e os = os ++ renderSpec e := by
  induction e with
  | const v => intro os; rfl
  | var n => intro os; rfl
  | binary k l r ihl ihr =>
      intro os
      have hop : k.op = specSymbol k := by cases k <;> rfl
      simp only [printExpr, renderSpec, ihl, ihr, hop, String.append_assoc]

/-- C8: for every expression, rendering succeeds (it is a total function
of the tree alone) and produces exactly the compositional format of the
spec: constants print their value, variables their name, and a binary
operation prints as the parenthesized left/symbol/right form with the
symbols `+`, `-`, `*`, `//`. -/
theorem render_eq_renderSpec : ∀ e : Expr, render e = renderSpec e := by
  intro e
  rw [render, printExpr_eq_append, String.empty_append]

/-- C9: the sample expression `(2 + x) * 5` evaluates to 25 under the
context `{x: 3}` and renders as the string `((2 + x) * 5)`. -/
theorem sample_expr_eval_render :
    evaluate (.binary .multiply (.binary .add (.const 2) (.var "x")) (.const 5))
        [("x", 3)] = .ok 25 ∧
    render (.binary .multiply (.binary .add (.const 2) (.var "x")) (.const 5))
        = "((2 + x) * 5)" :=
  ⟨rfl, rfl⟩

/-- C7: division performed by `evaluate` for an `IntegerDivide` node is
`Int.tdiv`, truncation toward zero; negating either operand negates the
quotient, with no further special-casing; in particular `-7 // 2`
evaluates to `-3`. -/
theorem idiv_truncates_toward_zero :
    (∀ ctx : Context,
      evaluate (.binary .integerDivide (.const (-7)) (.const 2)) ctx = .ok (-3)) ∧
    (∀ (l r : Expr) (ctx : Context) (a b : Int),
      evaluate l ctx = .ok a → evaluate r ctx = .ok b → b ≠ 0 →
      evaluate (.binary .integerDivide l r) ctx = .ok (a.tdiv b)) ∧
    (∀ a b : Int, Int.tdiv (-a) b = -(a.tdiv b) ∧ Int.tdiv a (-b) = -(a.tdiv b)) := by
  refine ⟨fun ctx => rfl, fun l r ctx a b hl hr hb => ?_, fun a b => ⟨Int.neg_tdiv a b, Int.tdiv_neg a b⟩⟩
  simp only [evaluate, hl, hr, if_neg hb]

/-- C7 witness: instantiation of the general division rule at
`IntegerDivide(Constant(9), Constant(-4))`, which evaluates to `-2`. -/
theorem idiv_truncates_toward_zero_witness :
    evaluate (.const 9) [] = .ok 9 ∧ evaluate (.const (-4)) [] = .ok (-4) ∧
    (-4 : Int) ≠ 0 ∧
    evaluate (.binary .integerDivide (.const 9) (.const (-4))) [] = .ok (-2) :=
  ⟨rfl, rfl, by decide,
   idiv_truncates_toward_zero.2.1 (.const 9) (.const (-4)) [] 9 (-4) rfl rfl (by decide)⟩

/-- C1 counterexample: `IntegerDivide(Variable("undef"), Constant(0))`
under the empty context fails with `DivisionByZero`, not with
`UndefinedVariable` as the claim states: `IntegerDivide::evaluate`
computes the divisor from the right subtree and checks it for zero
before ever evaluating the left subtree. -/
theorem idiv_order_counterexample :
    evaluate (.binary .integerDivide (.var "undef") (.const 0)) []
      = .error .divisionByZero ∧
    evaluate (.binary .integerDivide (.var "undef") (.const 0)) []
      ≠ .error (.undefinedVariable "undef") := by
  refine ⟨rfl, fun h => ?_⟩
  have h' := h.symm.trans (rfl : evaluate (.binary .integerDivide (.var "undef") (.const 0)) [] = .error .divisionByZero)
  injection h' with h''
  exact EvalError.noConfusion h''

/-- C1 amended: `Add`, `Subtract` and `Multiply` evaluate the left
subtree before the right one (a left-subtree failure takes precedence),
while `IntegerDivide` evaluates its right subtree (the divisor) first
and reports `DivisionByZero` on a zero divisor before the left subtree
is ever evaluated. -/
theorem binary_evaluation_order :
    (∀ (l r : Expr) (ctx : Context) (err : EvalError),
      evaluate l ctx = .error err →
      evaluate (.binary .add l r) ctx = .error err ∧
      evaluate (.binary .subtract l r) ctx = .error err ∧
      evaluate (.binary .multiply l r) ctx = .error err) ∧
    (∀ (l r : Expr) (ctx : Context) (err : EvalError),
      evaluate r ctx = .error err →
      evaluate (.binary .integerDivide l r) ctx = .error err) ∧
    (∀ (l r : Expr) (ctx : Context),
      evaluate r ctx = .ok 0 →
      evaluate (.binary .integerDivide l r) ctx = .error .divisionByZero) := by
  refine ⟨fun l r ctx err hl => ?_, fun l r ctx err hr => ?_, fun l r ctx hr => ?_⟩
  · exact ⟨by simp only [evaluate, hl], by simp only [evaluate, hl], by simp only [evaluate, hl]⟩
  · simp only [evaluate, hr]
  · simp [evaluate, hr]

/-- C1 amended witness: the divisor-first rule applied to
`IntegerDivide(Variable("undef"), Constant(0))`. -/
theorem binary_evaluation_order_witness :
    evaluate (.const 0) [] = .ok 0 ∧
    evaluate (.binary .integerDivide (.var "undef") (.const 0)) []
      = .error .divisionByZero :=
  ⟨rfl, binary_evaluation_order.2.2 (.var "undef") (.const 0) [] rfl⟩

theorem evaluateS_eq (e : Expr) :
    ∀ st : Context × Factory, evaluateS e st = (evaluate e st.1, st) := by
  induction e with
  | const v => intro st; rfl
  | var n => intro st; simp only [evaluateS, evaluate]; cases lookupKey n st.1 <;> rfl
  | binary k l r ihl ihr =>
      intro st
      cases k <;>
        simp only [evaluateS, evaluate, ihl, ihr] <;>
        first
          | (cases evaluate l st.1 <;> simp only [] <;> cases evaluate r st.1 <;> rfl)
          | (cases hr : evaluate r st.1 with
             | error e => rfl
             | ok d =>
                 by_cases hd : d = 0
                 · simp only [if_pos hd]
                 · simp only [if_neg hd]; cases evaluate l st.1 <;> rfl)

theorem printS_eq (e : Expr) :
    ∀ (os : String) (st : Context × Factory), printS e (os, st) = (printExpr e os, st) := by
  induction e with
  | const v => intro os st; rfl
  | var n => intro os st; rfl
  | binary k l r ihl ihr => intro os st; simp only [printS, printExpr, ihl, ihr]

/-- C10: evaluation and printing are free of side effects on the ambient
state: threading the evaluation context and the factory pools through
`evaluate` (and additionally the output stream through `print`) along
the exact C++ control flow returns that state unchanged, whether the
call returns a value or fails, and the produced result coincides with
the pure functions of the tree (which, being an immutable value, is
itself unchanged). -/
theorem evaluate_print_frame :
    ∀ (e : Expr) (ctx : Context) (f : Factory) (os : String),
      evaluateS e (ctx, f) = (evaluate e ctx, (ctx, f)) ∧
      printS e (os, (ctx, f)) = (printExpr e os, (ctx, f)) :=
  fun e ctx f os => ⟨evaluateS_eq e (ctx, f), printS_eq e os (ctx, f)⟩

end Task8
